import Mathlib

/-
Verification development for the temporal property-graph versioning engine.

The operational core of the repository is a set of Cypher queries:
  - the version-manager update query (lineage branching with label flips,
    a PREVIOUS_VERSION edge and relationship cloning),
  - a LOAD CSV MERGE ingest query (first-version creation),
  - a chain average-difference query and a pairwise property-diff query,
  - a windowed deduplication query over parallel value/timestamp lists,
  - an apoc.periodic.iterate batched bulk mutation call.
Each query is shallowly embedded below as an executable function over an
explicit property-graph store, and the documented properties are proved
or refuted against these embeddings.
-/

/-- Scalar property values stored on nodes and edges (strings and integers,
the value shapes the queries manipulate). -/
inductive Val where
  | str : String → Val
  | int : Int → Val
deriving DecidableEq

/-- Property-graph node: internal identity, labels, and a property map
represented as an association list. -/
structure GNode where
  nid : Nat
  labels : List String
  props : List (String × Val)
deriving DecidableEq

/-- Directed property-graph edge with a relationship type. -/
structure GEdge where
  src : Nat
  typ : String
  tgt : Nat
  props : List (String × Val)
deriving DecidableEq

/-- The entity store: nodes, edges and a fresh-id counter. -/
structure Store where
  nodes : List GNode
  edges : List GEdge
  nextId : Nat
deriving DecidableEq

/-- Membership test for a label on a node. -/
def hasLabel (n : GNode) (l : String) : Bool := n.labels.contains l

/-- Property access, returning none when the key is absent (Cypher NULL). -/
def getProp (n : GNode) (k : String) : Option Val := n.props.lookup k

/-- Cypher SET of a label: labels are a set, adding twice is idempotent. -/
def addLabel (n : GNode) (l : String) : GNode :=
  if hasLabel n l then n else { n with labels := l :: n.labels }

/-- Cypher REMOVE of a label. -/
def removeLabel (n : GNode) (l : String) : GNode :=
  { n with labels := n.labels.filter (fun s => s != l) }

/-- Cypher property update SET n.k = v on an association list. -/
def setProp (props : List (String × Val)) (k : String) (v : Val) :
    List (String × Val) :=
  if props.any (fun kv => kv.1 == k) then
    props.map (fun kv => if kv.1 == k then (k, v) else kv)
  else props ++ [(k, v)]

/-- Cypher inequality with NULL semantics: x may be NULL (none); the
comparison is TRUE only when both sides are present and the values differ.
A comparison involving NULL evaluates to NULL, which a WHERE clause and a
list filter treat as not-TRUE. -/
def cyNe (x : Option Val) (y : Option Val) : Bool :=
  match x, y with
  | some a, some b => a != b
  | _, _ => false

/-- Well-formedness of a store: node ids are below the fresh-id counter and
pairwise distinct, and edge endpoints are below the counter. -/
structure WF (st : Store) : Prop where
  nodesLt : ∀ n ∈ st.nodes, n.nid < st.nextId
  nodesNodup : (st.nodes.map GNode.nid).Nodup
  edgesLt : ∀ e ∈ st.edges, e.src < st.nextId ∧ e.tgt < st.nextId

/- Embedding of the version-manager update query (the branching query):
     WITH $id AS nodeId, $name AS newName, $email AS newEmail
     MATCH (current:Node:Current (id: nodeId))
     WHERE current.name <> newName OR current.email <> newEmail
     REMOVE current:Current  SET current:Historical
     CREATE (newNode:Node:Current (name..., email..., createdAt: timestamp()))
     CREATE (newNode)-[:PREVIOUS_VERSION (from: timestamp())]->(current)
     WITH current, newNode
     MATCH (current)-[rel]->(other) WHERE NOT type(rel) = PREVIOUS_VERSION
     FOREACH (ignoreMe IN CASE WHEN type(rel) = RELTYPE THEN [1] ELSE [] END |
         CREATE (newNode)-[newRel:RELTYPE (from: timestamp())]->(other)
         SET newRel = properties(rel)
         REMOVE newRel.from, newRel.to)
     RETURN newNode
-/

/-- Parameters of the update query, provided from the CSV feed. -/
structure UpdateParams where
  id : String
  name : String
  email : String
deriving DecidableEq

/-- The MATCH pattern (current:Node:Current with property id = nodeId). -/
def nodeMatches (p : UpdateParams) (n : GNode) : Bool :=
  hasLabel n "Node" && hasLabel n "Current" &&
    (getProp n "id" == some (Val.str p.id))

/-- The changed-fields WHERE clause:
current.name <> newName OR current.email <> newEmail. -/
def changedFields (p : UpdateParams) (n : GNode) : Bool :=
  cyNe (getProp n "name") (some (Val.str p.name)) ||
    cyNe (getProp n "email") (some (Val.str p.email))

/-- REMOVE newRel.from, newRel.to on a property map. -/
def stripLifecycle (props : List (String × Val)) : List (String × Val) :=
  props.filter (fun kv => kv.1 != "from" && kv.1 != "to")

/-- One cloned relationship, following the source steps literally:
CREATE with a from-timestamp, then SET newRel = properties(rel) which
replaces the whole property map, then REMOVE newRel.from, newRel.to. -/
def cloneEdge (now : Int) (wid : Nat) (e : GEdge) : GEdge :=
  let created : GEdge := ⟨wid, "RELTYPE", e.tgt, [("from", Val.int now)]⟩
  let afterSet : GEdge := { created with props := e.props }
  { afterSet with props := stripLifecycle afterSet.props }

/-- The rel rows of MATCH (current)-[rel]->(other)
WHERE NOT type(rel) = PREVIOUS_VERSION. -/
def outRels (st : Store) (m : GNode) : List GEdge :=
  st.edges.filter (fun e => e.src == m.nid && e.typ != "PREVIOUS_VERSION")

/-- Relabeling performed on the matched node: REMOVE current:Current,
SET current:Historical; every other node is untouched. -/
def flipLabels (m : GNode) (n : GNode) : GNode :=
  if n.nid == m.nid then addLabel (removeLabel n "Current") "Historical" else n

/-- The CREATE clause for newNode: labels Node and Current, properties
name, email and a createdAt stamp. -/
def wNode (now : Int) (p : UpdateParams) (wid : Nat) : GNode :=
  ⟨wid, ["Node", "Current"],
    [("name", Val.str p.name), ("email", Val.str p.email),
     ("createdAt", Val.int now)]⟩

/-- The CREATE clause for the PREVIOUS_VERSION edge newNode to current. -/
def pvEdge (now : Int) (wid tid : Nat) : GEdge :=
  ⟨wid, "PREVIOUS_VERSION", tid, [("from", Val.int now)]⟩

/-- The FOREACH clause: each relationship row whose type is RELTYPE yields a
cloned edge from the new node; other rows contribute nothing. -/
def clonesOf (now : Int) (wid : Nat) (st : Store) (m : GNode) : List GEdge :=
  (outRels st m).filterMap (fun e =>
    if e.typ == "RELTYPE" then some (cloneEdge now wid e) else none)

/-- The write clauses of the update query executed for one matched row:
flip the labels of the match, create the new Current node with the incoming
properties and a createdAt stamp, create the PREVIOUS_VERSION edge from the
new node to the match, and clone the allow-listed (RELTYPE) outgoing
relationships with their from/to keys removed. -/
def branchStep (now : Int) (p : UpdateParams) (st : Store) (m : GNode) : Store :=
  { nodes := st.nodes.map (flipLabels m) ++ [wNode now p st.nextId],
    edges := st.edges ++ pvEdge now st.nextId m.nid :: clonesOf now st.nextId st m,
    nextId := st.nextId + 1 }

/-- The rows surviving MATCH plus the changed-fields WHERE clause. -/
def matchedChanged (p : UpdateParams) (st : Store) : List GNode :=
  st.nodes.filter (fun n => nodeMatches p n && changedFields p n)

/-- The whole update query as a store transformer: every row that survives
the MATCH and the WHERE executes the write clauses. -/
def updateQuery (now : Int) (p : UpdateParams) (st : Store) : Store :=
  (matchedChanged p st).foldl (branchStep now p) st

/-- Result of running the update query: the final store together with the
RETURN newNode rows (one row per cloned-relationship MATCH row). A Cypher
query that matches nothing yields an empty row set; the query has no
failure outcome, but the notFound constructor gives the specified NotFound
signal a denotation so that its absence can be stated. -/
inductive UpdateResult where
  | rows : Store → List Nat → UpdateResult
  | notFound : UpdateResult
deriving DecidableEq

/-- Row accumulation for the update query: each matched row contributes one
RETURN row per relationship row of the trailing MATCH. -/
def updateRowsGo (now : Int) (p : UpdateParams) :
    Store × List Nat → GNode → Store × List Nat
  | (st, rows), m =>
    (branchStep now p st m,
     rows ++ List.replicate (outRels st m).length st.nextId)

/-- The update query together with its returned rows. -/
def updateQueryFull (now : Int) (p : UpdateParams) (st : Store) : UpdateResult :=
  let r := (matchedChanged p st).foldl (updateRowsGo now p) (st, [])
  UpdateResult.rows r.1 r.2

/-- A change-feed run: a sequence of update-query invocations, each with its
own transaction timestamp and parameters. -/
def runUpdates (us : List (Int × UpdateParams)) (st : Store) : Store :=
  us.foldl (fun s q => updateQuery q.1 q.2 s) st

/- Embedding of the LOAD CSV MERGE ingest query (the first-version creator):
     LOAD CSV WITH HEADERS ... AS row
     MERGE (n:YourLabel (uniqueProperty: row.uniqueProperty))
     OPTIONAL MATCH (n)-[r:PREVIOUS_VERSION]->(old:YourLabel_History)
     ORDER BY old.version DESC LIMIT 1
     WITH n, row, CASE WHEN old IS NULL OR (old.property1 <> row.csvProperty1
          OR old.property2 <> row.csvProperty2 OR ...) THEN true ELSE false
          END AS hasChanged, old
     FOREACH (ignoreMe IN CASE WHEN hasChanged AND old IS NOT NULL
              THEN [1] ELSE [] END |
       REMOVE n:CurrentVersion
       CREATE (n)-[:PREVIOUS_VERSION (timestamp: timestamp())]->(old))
     SET n.property1 = row.csvProperty1, n.property2 = row.csvProperty2, ...
     SET n:CurrentVersion
   The source elides further compared properties with an ellipsis; the
   embedding instantiates the schema at the two named properties. -/

/-- One CSV row of the ingest feed. -/
structure CsvRow where
  uniqueProperty : String
  csvProperty1 : String
  csvProperty2 : String
deriving DecidableEq

/-- The MERGE pattern (n:YourLabel with the unique property of the row). -/
def mergeMatches (row : CsvRow) (n : GNode) : Bool :=
  hasLabel n "YourLabel" &&
    (getProp n "uniqueProperty" == some (Val.str row.uniqueProperty))

/-- Integer version key used by ORDER BY old.version DESC (the embedding
restricts the ordering to integer-valued version properties). -/
def versionOf (o : GNode) : Int :=
  match getProp o "version" with
  | some (Val.int k) => k
  | _ => 0

/-- The OPTIONAL MATCH candidates: history predecessors of n reached by a
PREVIOUS_VERSION edge and labeled YourLabel_History. -/
def histPreds (st : Store) (n : GNode) : List GNode :=
  st.nodes.filter (fun o =>
    hasLabel o "YourLabel_History" &&
      st.edges.any (fun e =>
        e.src == n.nid && e.typ == "PREVIOUS_VERSION" && e.tgt == o.nid))

/-- ORDER BY old.version DESC LIMIT 1 over the optional-match candidates. -/
def pickLatest (os : List GNode) : Option GNode :=
  os.foldl
    (fun best o =>
      match best with
      | none => some o
      | some b => if versionOf o > versionOf b then some o else some b)
    none

/-- The CASE expression computing hasChanged. -/
def mergeHasChanged (row : CsvRow) : Option GNode → Bool
  | none => true
  | some old =>
    cyNe (getProp old "property1") (some (Val.str row.csvProperty1)) ||
      cyNe (getProp old "property2") (some (Val.str row.csvProperty2))

/-- Write clauses of the ingest query for an already-existing matched node. -/
def mergeStepMatched (now : Int) (row : CsvRow) (st : Store) (n : GNode) :
    Store :=
  let old := pickLatest (histPreds st n)
  let changed := mergeHasChanged row old
  let st1 : Store :=
    match old, changed with
    | some o, true =>
      { st with
        nodes := st.nodes.map (fun x =>
          if x.nid == n.nid then removeLabel x "CurrentVersion" else x),
        edges := st.edges ++
          [⟨n.nid, "PREVIOUS_VERSION", o.nid, [("timestamp", Val.int now)]⟩] }
    | _, _ => st
  { st1 with
    nodes := st1.nodes.map (fun x =>
      if x.nid == n.nid then
        let p1 := setProp x.props "property1" (Val.str row.csvProperty1)
        let p2 := setProp p1 "property2" (Val.str row.csvProperty2)
        addLabel { x with props := p2 } "CurrentVersion"
      else x) }

/-- The whole ingest query for one CSV row: MERGE either finds the matching
nodes or creates a fresh one carrying the merge pattern, then the version
bookkeeping and the property SETs run on each row. -/
def mergeIngest (now : Int) (row : CsvRow) (st : Store) : Store :=
  match st.nodes.filter (fun n => mergeMatches row n) with
  | [] =>
    let n0 : GNode :=
      ⟨st.nextId, ["YourLabel"],
        [("uniqueProperty", Val.str row.uniqueProperty)]⟩
    let p1 := setProp n0.props "property1" (Val.str row.csvProperty1)
    let p2 := setProp p1 "property2" (Val.str row.csvProperty2)
    let n2 := addLabel { n0 with props := p2 } "CurrentVersion"
    { st with nodes := st.nodes ++ [n2], nextId := st.nextId + 1 }
  | ms => ms.foldl (mergeStepMatched now row) st

/- Embedding of the history-analyzer average-difference query:
     MATCH (n)-[:LINKED_TO*]->(m)
     WITH n, m, [(n)-[:LINKED_TO*]->(x) | x.value] AS values
     WITH n, m, values, size(values) as chain_length,
          [i IN range(0, chain_length - 2) | abs(values[i] - values[i + 1])]
            as differences
     WITH n, m, reduce(total = 0, d in differences | total + d)
            as total_difference
     RETURN n, m, total_difference / (CASE WHEN chain_length > 1
            THEN chain_length - 1 ELSE 1 END) as average_difference
   The store is a simple LINKED_TO chain, modelled by the list of the
   designated numeric values of its nodes in chain order (numeric values as
   rationals). On a simple chain the pattern comprehension from node i
   yields one path per later node, in increasing path length, so its value
   list is the suffix of the chain strictly after position i. -/

/-- Value list of the pattern comprehension for start node i of the chain:
the x.value entries of the nodes strictly after position i. -/
def pathValues (chain : List ℚ) (i : Nat) : List ℚ := chain.drop (i + 1)

/-- The differences list: Cypher range(0, chain_length - 2) is inclusive on
both ends, hence it has chain_length - 1 entries. -/
def differencesOf (values : List ℚ) : List ℚ :=
  (List.range (values.length - 1)).map
    (fun i => |values.getD i 0 - values.getD (i + 1) 0|)

/-- reduce(total = 0, d in differences | total + d). -/
def totalDifference (values : List ℚ) : ℚ :=
  (differencesOf values).foldl (fun total d => total + d) 0

/-- The average_difference of one RETURN row for start node i. -/
def averageDifferenceRow (chain : List ℚ) (i : Nat) : ℚ :=
  let values := pathValues chain i
  let chain_length := values.length
  totalDifference values /
    (if chain_length > 1 then (chain_length : ℚ) - 1 else 1)

/-- All RETURN rows of the query on the chain: one row per ordered pair of
a start node and a strictly later node reachable from it (the MATCH needs
at least one hop), carrying the average_difference of that start node. -/
def queryRows (chain : List ℚ) : List (Nat × Nat × ℚ) :=
  (List.range chain.length).flatMap (fun i =>
    ((List.range chain.length).filter (fun j => i < j)).map
      (fun j => (i, j, averageDifferenceRow chain i)))

/- Embedding of the pairwise property-diff query:
     MATCH (a:Label (identifier: value1)), (b:Label (identifier: value2))
     WITH a, b, PROPERTIES(a) AS propsA, PROPERTIES(b) AS propsB
     RETURN a, b,
       [k IN KEYS(propsA) WHERE propsA[k] <> propsB[k] | k]
         AS differingProperties
-/

/-- The differingProperties list comprehension: keys of propsA whose value
differs from propsB under Cypher NULL-propagating inequality. -/
def differingProperties (propsA propsB : List (String × Val)) : List String :=
  (propsA.map Prod.fst).filter
    (fun k => cyNe (propsA.lookup k) (propsB.lookup k))

/- Embedding of the windowed deduplication query:
     MATCH (n:Node)
     UNWIND range(0, size(n.search) - 1) AS i
     WITH n, i, n.search[i] AS searchText, n.timestamp[i] AS searchTime
     WHERE any(j IN range(0, size(n.search) - 1) WHERE
         j <> i AND
         n.search[j] CONTAINS searchText AND
         abs(n.timestamp[j] - searchTime) <= 60000)
     WITH n, collect(i) AS indexesToMerge
     SET n.search = [index IN range(0, size(n.search) - 1)
           WHERE NOT index IN indexesToMerge | n.search[index]],
         n.timestamp = [index IN range(0, size(n.timestamp) - 1)
           WHERE NOT index IN indexesToMerge | n.timestamp[index]]
-/

/-- Cypher CONTAINS: the needle occurs in the haystack as a substring. -/
def cyContains (haystack needle : String) : Bool :=
  decide (needle.toList <:+: haystack.toList)

/-- One entity carrying the parallel multi-valued attribute lists. -/
structure SearchNode where
  search : List String
  timestamp : List Int
deriving DecidableEq

/-- The collected indexesToMerge: indices i for which some other index j
holds a containing value within the 60,000 ms window. -/
def toMergeIdx (n : SearchNode) : List Nat :=
  (List.range n.search.length).filter (fun i =>
    (List.range n.search.length).any (fun j =>
      j != i &&
        cyContains (n.search.getD j "") (n.search.getD i "") &&
        decide ((n.timestamp.getD j 0 - n.timestamp.getD i 0).natAbs ≤ 60000)))

/-- The two SET clauses rebuilding the parallel lists, each over its own
size as in the source, keeping only indices not collected for merging. -/
def dedupSearch (n : SearchNode) : SearchNode :=
  let indexesToMerge := toMergeIdx n
  { search :=
      ((List.range n.search.length).filter
          (fun i => !indexesToMerge.contains i)).map
        (fun i => n.search.getD i ""),
    timestamp :=
      ((List.range n.timestamp.length).filter
          (fun i => !indexesToMerge.contains i)).map
        (fun i => n.timestamp.getD i 0) }

/- The batched mutation executor, invoked in the source as
     CALL apoc.periodic.iterate(
       "MATCH (n) RETURN n", "DETACH DELETE n",
       (batchSize: 500, iterateList: true, parallel: false))
-/

/-- Modelled from the spec: the apoc.periodic.iterate batching procedure is
a library routine whose implementation is not part of this repository; per
the spec it repeatedly selects up to batch_size unprocessed matches,
applies the mutation to that batch as one transaction, and continues until
no matches remain. The helper walks the matched list, closing a chunk
whenever the remaining room in the current batch runs out. -/
def chunksGo (b : Nat) : List α → List α → Nat → List (List α)
  | [], acc, _ => if acc.isEmpty then [] else [acc.reverse]
  | x :: xs, acc, room =>
    if room ≤ 1 then (x :: acc).reverse :: chunksGo b xs [] b
    else chunksGo b xs (x :: acc) (room - 1)

/-- Modelled from the spec: the selection of matched entities, split into
successive batches of at most b entities. -/
def chunks (b : Nat) (l : List α) : List (List α) := chunksGo b l [] b

/-- Modelled from the spec: with parallel = false the executor applies the
mutation to each batch in order, strictly sequentially, each batch as one
transaction. -/
def periodicIterate (f : σ → α → σ) (b : Nat) (l : List α) (st : σ) : σ :=
  (chunks b l).foldl (fun s batch => batch.foldl f s) st

/- Lineage structure and invariants used to state the versioning claims. -/

/-- One undirected step along a PREVIOUS_VERSION edge: the version-edge
adjacency between two node ids. -/
def VEdgeRel (st : Store) (a b : Nat) : Prop :=
  ∃ e ∈ st.edges, e.typ = "PREVIOUS_VERSION" ∧
    ((e.src = a ∧ e.tgt = b) ∨ (e.src = b ∧ e.tgt = a))

/-- Two node ids belong to the same lineage when they are connected by a
chain of PREVIOUS_VERSION edges (reflexive-transitive closure of the
undirected version-edge adjacency). -/
def SameLineage (st : Store) : Nat → Nat → Prop :=
  Relation.ReflTransGen (VEdgeRel st)

/-- The lineage invariant: within every lineage at most one node carries
the Current label, every node is in a lineage holding a Current node
(hence exactly one), and every non-Current node is Historical. -/
structure LineageInv (st : Store) : Prop where
  atMostOne : ∀ a ∈ st.nodes, ∀ b ∈ st.nodes,
    hasLabel a "Current" = true → hasLabel b "Current" = true →
    SameLineage st a.nid b.nid → a.nid = b.nid
  atLeastOne : ∀ a ∈ st.nodes, ∃ c ∈ st.nodes,
    hasLabel c "Current" = true ∧ SameLineage st a.nid c.nid
  histOtherwise : ∀ a ∈ st.nodes, hasLabel a "Current" = false →
    hasLabel a "Historical" = true

/-- Collapse of the fresh node id onto the id of the matched node, used to
project lineage paths of the post-branch store back onto the old store. -/
def linSub (w t x : Nat) : Nat := if x = w then t else x

/-- Sum of absolute adjacent differences of a value list, the clean form of
the mean-absolute-step numerator. -/
def absStepSum (vs : List ℚ) : ℚ :=
  (List.zipWith (fun a b => |a - b|) vs vs.tail).sum

/- Concrete fixtures used by witnesses and counterexamples. -/

/-- Fixture: a Current entity of lineage m1 with name a and email e. -/
def exOld : GNode :=
  ⟨0, ["Node", "Current"],
    [("id", Val.str "m1"), ("name", Val.str "a"), ("email", Val.str "e")]⟩

/-- Fixture: a plain target node. -/
def exTgt : GNode := ⟨1, [], []⟩

/-- Fixture: a store with the m1 entity, one LINKED_TO edge and one RELTYPE
edge (the latter carrying a from timestamp). -/
def exStore : Store :=
  ⟨[exOld, exTgt],
    [⟨0, "LINKED_TO", 1, [("w", Val.int 7)]⟩,
     ⟨0, "RELTYPE", 1, [("weight", Val.int 3), ("from", Val.int 5)]⟩],
    2⟩

/-- Fixture: update parameters renaming the m1 entity. -/
def exParams : UpdateParams := ⟨"m1", "b", "e"⟩

/-- Fixture: the empty store. -/
def emptyStore : Store := ⟨[], [], 0⟩

/-- Fixture: a store holding exactly the single Current m1 entity. -/
def invStore : Store := ⟨[exOld], [], 1⟩

/-- Fixture: one CSV ingest row. -/
def exRow : CsvRow := ⟨"u1", "p", "q"⟩

/-- Fixture: the deduplication example entity. -/
def exSearchNode : SearchNode := ⟨["foo bar", "foo", "baz"], [0, 1000, 120000]⟩

/- Helper lemmas about labels and the branch step. -/

theorem hasLabel_iff (n : GNode) (l : String) :
    hasLabel n l = true ↔ l ∈ n.labels := by
  simp [hasLabel]

theorem addLabel_nid (n : GNode) (l : String) : (addLabel n l).nid = n.nid := by
  rw [addLabel]
  split <;> rfl

theorem removeLabel_nid (n : GNode) (l : String) :
    (removeLabel n l).nid = n.nid := rfl

theorem flipLabels_nid (m n : GNode) : (flipLabels m n).nid = n.nid := by
  rw [flipLabels]
  split
  · rw [addLabel_nid, removeLabel_nid]
  · rfl

theorem flipLabels_of_ne (m n : GNode) (h : n.nid ≠ m.nid) : flipLabels m n = n := by
  rw [flipLabels, if_neg]
  simp [h]

theorem hasLabel_addLabel_self (n : GNode) (l : String) :
    hasLabel (addLabel n l) l = true := by
  rw [addLabel]
  split
  · assumption
  · simp [hasLabel_iff]

theorem hasLabel_addLabel_of_ne (n : GNode) (l l2 : String) (h : l2 ≠ l) :
    hasLabel (addLabel n l) l2 = hasLabel n l2 := by
  rw [addLabel]
  split
  · rfl
  · rw [Bool.eq_iff_iff]
    simp only [hasLabel_iff]
    simp [List.mem_cons, h]

theorem hasLabel_removeLabel_self (n : GNode) (l : String) :
    hasLabel (removeLabel n l) l = false := by
  rw [removeLabel]
  rw [← Bool.not_eq_true]
  simp only [hasLabel_iff]
  intro hmem
  have := (List.mem_filter.mp hmem).2
  simp at this

theorem hasLabel_removeLabel_of_ne (n : GNode) (l l2 : String) (h : l2 ≠ l) :
    hasLabel (removeLabel n l) l2 = hasLabel n l2 := by
  rw [removeLabel, Bool.eq_iff_iff]
  simp only [hasLabel_iff]
  constructor
  · intro hmem
    exact (List.mem_filter.mp hmem).1
  · intro hmem
    exact List.mem_filter.mpr ⟨hmem, by simp [h]⟩

theorem flipLabels_current_self (m n : GNode) (h : n.nid = m.nid) :
    hasLabel (flipLabels m n) "Current" = false := by
  rw [flipLabels, if_pos (by simp [h])]
  rw [hasLabel_addLabel_of_ne _ _ _ (by decide)]
  exact hasLabel_removeLabel_self n "Current"

theorem flipLabels_historical_self (m n : GNode) (h : n.nid = m.nid) :
    hasLabel (flipLabels m n) "Historical" = true := by
  rw [flipLabels, if_pos (by simp [h])]
  exact hasLabel_addLabel_self _ "Historical"

theorem mem_matchedChanged (p : UpdateParams) (st : Store) (n : GNode) :
    n ∈ matchedChanged p st ↔
      n ∈ st.nodes ∧ nodeMatches p n = true ∧ changedFields p n = true := by
  rw [matchedChanged, List.mem_filter, Bool.and_eq_true]

theorem nodeMatches_current (p : UpdateParams) (n : GNode)
    (h : nodeMatches p n = true) : hasLabel n "Current" = true := by
  rw [nodeMatches, Bool.and_eq_true, Bool.and_eq_true] at h
  exact h.1.2

theorem clonesOf_shape (now : Int) (wid : Nat) (st : Store) (m : GNode) :
    ∀ e2 ∈ clonesOf now wid st m, ∃ e ∈ st.edges,
      e.src = m.nid ∧ e.typ = "RELTYPE" ∧
      e2 = ⟨wid, "RELTYPE", e.tgt, stripLifecycle e.props⟩ := by
  intro e2 h2
  rw [clonesOf, List.mem_filterMap] at h2
  obtain ⟨e, he, heq⟩ := h2
  rw [outRels, List.mem_filter] at he
  obtain ⟨hmem, hcond⟩ := he
  rw [Bool.and_eq_true] at hcond
  by_cases ht : e.typ = "RELTYPE"
  · rw [if_pos (by simp [ht])] at heq
    refine ⟨e, hmem, by simpa using hcond.1, ht, ?_⟩
    cases heq
    rfl
  · rw [if_neg (by simp [ht])] at heq
    cases heq

theorem lookup_stripLifecycle_from (props : List (String × Val)) :
    (stripLifecycle props).lookup "from" = none := by
  induction props with
  | nil => rfl
  | cons kv t ih =>
    rw [stripLifecycle, List.filter_cons]
    by_cases h : (kv.1 != "from" && kv.1 != "to") = true
    · rw [if_pos h, List.lookup_cons]
      have hb : ("from" == kv.1) = false := by
        rw [Bool.and_eq_true, bne_iff_ne, bne_iff_ne] at h
        exact beq_eq_false_iff_ne.mpr (fun e => h.1 e.symm)
      rw [hb]
      exact ih
    · rw [if_neg h]
      exact ih

theorem lookup_stripLifecycle_to (props : List (String × Val)) :
    (stripLifecycle props).lookup "to" = none := by
  induction props with
  | nil => rfl
  | cons kv t ih =>
    rw [stripLifecycle, List.filter_cons]
    by_cases h : (kv.1 != "from" && kv.1 != "to") = true
    · rw [if_pos h, List.lookup_cons]
      have hb : ("to" == kv.1) = false := by
        rw [Bool.and_eq_true, bne_iff_ne, bne_iff_ne] at h
        exact beq_eq_false_iff_ne.mpr (fun e => h.2 e.symm)
      rw [hb]
      exact ih
    · rw [if_neg h]
      exact ih

theorem updateQuery_single (now : Int) (p : UpdateParams) (st : Store)
    (m : GNode) (hm : matchedChanged p st = [m]) :
    updateQuery now p st = branchStep now p st m := by
  rw [updateQuery, hm]
  rfl

theorem vedge_branchStep (now : Int) (p : UpdateParams) (st : Store) (m : GNode)
    (a b : Nat) :
    VEdgeRel (branchStep now p st m) a b ↔
      VEdgeRel st a b ∨ (a = st.nextId ∧ b = m.nid) ∨
        (a = m.nid ∧ b = st.nextId) := by
  constructor
  · rintro ⟨e, he, htyp, hends⟩
    rw [branchStep] at he
    rcases List.mem_append.mp he with hold | hnew
    · exact Or.inl ⟨e, hold, htyp, hends⟩
    · rcases List.mem_cons.mp hnew with rfl | hclone
      · rcases hends with ⟨h1, h2⟩ | ⟨h1, h2⟩
        · exact Or.inr (Or.inl ⟨h1.symm, h2.symm⟩)
        · exact Or.inr (Or.inr ⟨h2.symm, h1.symm⟩)
      · obtain ⟨e0, -, -, -, rfl⟩ := clonesOf_shape now st.nextId st m e hclone
        exact absurd htyp
          (by intro hq
              exact (by decide : ("RELTYPE" : String) ≠ "PREVIOUS_VERSION") hq)
  · rintro (⟨e, he, htyp, hends⟩ | ⟨rfl, rfl⟩ | ⟨rfl, rfl⟩)
    · refine ⟨e, ?_, htyp, hends⟩
      rw [branchStep]
      exact List.mem_append_left _ he
    · refine ⟨pvEdge now st.nextId m.nid, ?_, rfl, Or.inl ⟨rfl, rfl⟩⟩
      rw [branchStep]
      exact List.mem_append_right _ (List.mem_cons_self _ _)
    · refine ⟨pvEdge now st.nextId m.nid, ?_, rfl, Or.inr ⟨rfl, rfl⟩⟩
      rw [branchStep]
      exact List.mem_append_right _ (List.mem_cons_self _ _)

theorem sameLineage_lift (now : Int) (p : UpdateParams) (st : Store) (m : GNode)
    (a b : Nat) (h : SameLineage st a b) :
    SameLineage (branchStep now p st m) a b := by
  refine Relation.ReflTransGen.mono ?_ h
  intro x y hxy
  exact (vedge_branchStep now p st m x y).mpr (Or.inl hxy)

theorem linSub_self (w t : Nat) : linSub w t w = t := by
  rw [linSub, if_pos rfl]

theorem linSub_of_ne (w t x : Nat) (h : x ≠ w) : linSub w t x = x := by
  rw [linSub, if_neg h]

theorem sameLineage_down (now : Int) (p : UpdateParams) (st : Store) (m : GNode)
    (hwf : WF st) (hm : m ∈ st.nodes) (a b : Nat)
    (h : SameLineage (branchStep now p st m) a b) :
    SameLineage st (linSub st.nextId m.nid a) (linSub st.nextId m.nid b) := by
  have hmlt : m.nid < st.nextId := hwf.nodesLt m hm
  induction h with
  | refl => exact Relation.ReflTransGen.refl
  | @tail c d hac hcd ih =>
    rcases (vedge_branchStep now p st m c d).mp hcd with
      hold | ⟨rfl, rfl⟩ | ⟨rfl, rfl⟩
    · obtain ⟨e, he, htyp, hends⟩ := hold
      have hlt := hwf.edgesLt e he
      have hc : linSub st.nextId m.nid c = c := by
        rcases hends with ⟨h1, h2⟩ | ⟨h1, h2⟩ <;>
          exact linSub_of_ne _ _ _ (by omega)
      have hd : linSub st.nextId m.nid d = d := by
        rcases hends with ⟨h1, h2⟩ | ⟨h1, h2⟩ <;>
          exact linSub_of_ne _ _ _ (by omega)
      rw [hc] at ih
      rw [hd]
      exact ih.tail ⟨e, he, htyp, hends⟩
    · have e1 : linSub st.nextId m.nid m.nid = m.nid :=
        linSub_of_ne _ _ _ (by omega)
      rw [linSub_self] at ih
      rw [e1]
      exact ih
    · have e1 : linSub st.nextId m.nid m.nid = m.nid :=
        linSub_of_ne _ _ _ (by omega)
      rw [e1] at ih
      rw [linSub_self]
      exact ih

theorem mem_branchStep_nodes (now : Int) (p : UpdateParams) (st : Store)
    (m x : GNode) :
    x ∈ (branchStep now p st m).nodes ↔
      (∃ n ∈ st.nodes, x = flipLabels m n) ∨ x = wNode now p st.nextId := by
  rw [branchStep]
  rw [List.mem_append, List.mem_map, List.mem_singleton]
  constructor
  · rintro (⟨n, hn, rfl⟩ | h)
    · exact Or.inl ⟨n, hn, rfl⟩
    · exact Or.inr h
  · rintro (⟨n, hn, rfl⟩ | h)
    · exact Or.inl ⟨n, hn, rfl⟩
    · exact Or.inr h

theorem branchStep_WF (now : Int) (p : UpdateParams) (st : Store) (m : GNode)
    (hwf : WF st) (hm : m ∈ st.nodes) :
    WF (branchStep now p st m) := by
  refine ⟨?_, ?_, ?_⟩
  · intro n hn
    rcases (mem_branchStep_nodes now p st m n).mp hn with ⟨n0, hn0, rfl⟩ | rfl
    · have h1 := hwf.nodesLt n0 hn0
      have h2 : (flipLabels m n0).nid = n0.nid := flipLabels_nid m n0
      show (flipLabels m n0).nid < st.nextId + 1
      omega
    · show st.nextId < st.nextId + 1
      omega
  · rw [branchStep]
    simp only [List.map_append, List.map_map]
    have hcomp : (GNode.nid ∘ flipLabels m) = GNode.nid := by
      funext n
      exact flipLabels_nid m n
    rw [hcomp]
    rw [List.nodup_append]
    refine ⟨hwf.nodesNodup, List.nodup_singleton _, ?_⟩
    intro x hx hx2
    simp only [List.map_cons, List.map_nil, List.mem_singleton] at hx2
    obtain ⟨n0, hn0, rfl⟩ := List.mem_map.mp hx
    have := hwf.nodesLt n0 hn0
    rw [hx2] at this
    simp [wNode] at this
  · intro e he
    rw [branchStep] at he
    rcases List.mem_append.mp he with hold | hnew
    · have h1 := hwf.edgesLt e hold
      exact ⟨by show e.src < st.nextId + 1; omega,
        by show e.tgt < st.nextId + 1; omega⟩
    · rcases List.mem_cons.mp hnew with rfl | hclone
      · have h1 := hwf.nodesLt m hm
        exact ⟨by show st.nextId < st.nextId + 1; omega,
          by show m.nid < st.nextId + 1; omega⟩
      · obtain ⟨e0, he0, -, -, rfl⟩ := clonesOf_shape now st.nextId st m e hclone
        have h1 := hwf.edgesLt e0 he0
        exact ⟨by show st.nextId < st.nextId + 1; omega,
          by show e0.tgt < st.nextId + 1; omega⟩

theorem branchStep_inv (now : Int) (p : UpdateParams) (st : Store) (m : GNode)
    (hwf : WF st) (hinv : LineageInv st) (hm : m ∈ st.nodes)
    (hcur : hasLabel m "Current" = true) :
    LineageInv (branchStep now p st m) := by
  have hmlt : m.nid < st.nextId := hwf.nodesLt m hm
  have hwcur : hasLabel (wNode now p st.nextId) "Current" = true := rfl
  have hwnid : (wNode now p st.nextId).nid = st.nextId := rfl
  refine ⟨?_, ?_, ?_⟩
  · intro a ha b hb hca hcb hsl
    have hdown := sameLineage_down now p st m hwf hm a.nid b.nid hsl
    rcases (mem_branchStep_nodes now p st m a).mp ha with ⟨n1, hn1, rfl⟩ | rfl
    · have hne1 : n1.nid ≠ m.nid := by
        intro heq
        rw [flipLabels_current_self m n1 heq] at hca
        cases hca
      rw [flipLabels_of_ne m n1 hne1] at hca hdown ⊢
      have hlt1 : n1.nid < st.nextId := hwf.nodesLt n1 hn1
      rw [linSub_of_ne _ _ _ (by omega)] at hdown
      rcases (mem_branchStep_nodes now p st m b).mp hb with ⟨n2, hn2, rfl⟩ | rfl
      · have hne2 : n2.nid ≠ m.nid := by
          intro heq
          rw [flipLabels_current_self m n2 heq] at hcb
          cases hcb
        rw [flipLabels_of_ne m n2 hne2] at hcb hdown ⊢
        have hlt2 : n2.nid < st.nextId := hwf.nodesLt n2 hn2
        rw [linSub_of_ne _ _ _ (by omega)] at hdown
        exact hinv.atMostOne n1 hn1 n2 hn2 hca hcb hdown
      · exfalso
        rw [hwnid, linSub_self] at hdown
        have := hinv.atMostOne n1 hn1 m hm hca hcur hdown
        omega
    · rw [hwnid] at hdown ⊢
      rw [linSub_self] at hdown
      rcases (mem_branchStep_nodes now p st m b).mp hb with ⟨n2, hn2, rfl⟩ | rfl
      · exfalso
        have hne2 : n2.nid ≠ m.nid := by
          intro heq
          rw [flipLabels_current_self m n2 heq] at hcb
          cases hcb
        rw [flipLabels_of_ne m n2 hne2] at hcb hdown
        have hlt2 : n2.nid < st.nextId := hwf.nodesLt n2 hn2
        rw [linSub_of_ne _ _ _ (by omega)] at hdown
        have := hinv.atMostOne m hm n2 hn2 hcur hcb hdown
        omega
      · rfl
  · intro a ha
    rcases (mem_branchStep_nodes now p st m a).mp ha with ⟨n1, hn1, rfl⟩ | rfl
    · obtain ⟨c, hc, hccur, hcsl⟩ := hinv.atLeastOne n1 hn1
      by_cases hcm : c.nid = m.nid
      · refine ⟨wNode now p st.nextId, ?_, hwcur, ?_⟩
        · exact (mem_branchStep_nodes now p st m _).mpr (Or.inr rfl)
        · rw [flipLabels_nid, hwnid]
          have hlift := sameLineage_lift now p st m n1.nid c.nid hcsl
          refine hlift.tail ?_
          refine ⟨pvEdge now st.nextId m.nid, ?_, rfl, Or.inr ⟨rfl, hcm ▸ rfl⟩⟩
          rw [branchStep]
          exact List.mem_append_right _ (List.mem_cons_self _ _)
      · refine ⟨flipLabels m c, ?_, ?_, ?_⟩
        · exact (mem_branchStep_nodes now p st m _).mpr (Or.inl ⟨c, hc, rfl⟩)
        · rw [flipLabels_of_ne m c hcm]
          exact hccur
        · rw [flipLabels_nid, flipLabels_nid]
          exact sameLineage_lift now p st m n1.nid c.nid hcsl
    · exact ⟨wNode now p st.nextId,
        (mem_branchStep_nodes now p st m _).mpr (Or.inr rfl), hwcur,
        Relation.ReflTransGen.refl⟩
  · intro a ha hnc
    rcases (mem_branchStep_nodes now p st m a).mp ha with ⟨n1, hn1, rfl⟩ | rfl
    · by_cases hne : n1.nid = m.nid
      · exact flipLabels_historical_self m n1 hne
      · rw [flipLabels_of_ne m n1 hne] at hnc ⊢
        exact hinv.histOtherwise n1 hn1 hnc
    · rw [hwcur] at hnc
      cases hnc

theorem foldBranch_WFInv (now : Int) (p : UpdateParams) :
    ∀ (ms : List GNode) (st : Store), WF st → LineageInv st →
      (∀ m ∈ ms, m ∈ st.nodes ∧ hasLabel m "Current" = true) →
      (ms.map GNode.nid).Nodup →
      WF (ms.foldl (branchStep now p) st) ∧
        LineageInv (ms.foldl (branchStep now p) st) := by
  intro ms
  induction ms with
  | nil =>
    intro st hwf hinv _ _
    exact ⟨hwf, hinv⟩
  | cons m ms ih =>
    intro st hwf hinv hmem hnodup
    rw [List.foldl_cons]
    have h0 := hmem m (List.mem_cons_self m ms)
    have hwf1 := branchStep_WF now p st m hwf h0.1
    have hinv1 := branchStep_inv now p st m hwf hinv h0.1 h0.2
    rw [List.map_cons, List.nodup_cons] at hnodup
    refine ih (branchStep now p st m) hwf1 hinv1 ?_ hnodup.2
    intro m2 hm2
    have h2 := hmem m2 (List.mem_cons_of_mem m hm2)
    have hne : m2.nid ≠ m.nid := by
      intro heq
      exact hnodup.1 (List.mem_map.mpr ⟨m2, hm2, heq⟩)
    refine ⟨?_, h2.2⟩
    exact (mem_branchStep_nodes now p st m m2).mpr
      (Or.inl ⟨m2, h2.1, (flipLabels_of_ne m m2 hne).symm⟩)

theorem updateQuery_WFInv (now : Int) (p : UpdateParams) (st : Store)
    (hwf : WF st) (hinv : LineageInv st) :
    WF (updateQuery now p st) ∧ LineageInv (updateQuery now p st) := by
  rw [updateQuery]
  refine foldBranch_WFInv now p (matchedChanged p st) st hwf hinv ?_ ?_
  · intro m hm
    have h := (mem_matchedChanged p st m).mp hm
    exact ⟨h.1, nodeMatches_current p m h.2.1⟩
  · exact List.Nodup.sublist
      (List.Sublist.map GNode.nid (List.filter_sublist _)) hwf.nodesNodup

/- Helper lemmas for the history analyzer. -/

theorem differencesOf_eq_zipWith (vs : List ℚ) :
    differencesOf vs = List.zipWith (fun a b => |a - b|) vs vs.tail := by
  induction vs with
  | nil => simp [differencesOf]
  | cons a t ih =>
    cases t with
    | nil => simp [differencesOf]
    | cons b t2 =>
      simp only [differencesOf, List.length_cons, Nat.add_sub_cancel] at ih ⊢
      rw [List.range_succ_eq_map, List.map_cons, List.map_map]
      simp only [List.getD_cons_zero, List.getD_cons_succ, List.zipWith,
        List.tail_cons]
      congr 1

theorem totalDifference_eq_absStepSum (vs : List ℚ) :
    totalDifference vs = absStepSum vs := by
  rw [totalDifference, absStepSum, differencesOf_eq_zipWith, ← List.sum_eq_foldl]

theorem divisor_eq_max (L : Nat) :
    (if L > 1 then (L : ℚ) - 1 else 1) = ((max 1 (L - 1) : Nat) : ℚ) := by
  by_cases h : L > 1
  · rw [if_pos h]
    have h1 : max 1 (L - 1) = L - 1 := by omega
    rw [h1]
    have h2 : ((L - 1 : Nat) : ℚ) = (L : ℚ) - 1 := by
      push_cast [Nat.cast_sub (by omega : 1 ≤ L)]
      ring
    rw [h2]
  · rw [if_neg h]
    have h1 : max 1 (L - 1) = 1 := by omega
    rw [h1]
    norm_num

theorem mem_keys_iff_lookup (A : List (String × Val)) (k : String) :
    k ∈ A.map Prod.fst ↔ ∃ v, A.lookup k = some v := by
  induction A with
  | nil => simp
  | cons kv t ih =>
    rw [List.map_cons, List.mem_cons, List.lookup_cons]
    by_cases h : k = kv.1
    · subst h
      simp
    · have hb : (k == kv.1) = false := beq_eq_false_iff_ne.mpr h
      rw [hb]
      simp only [ih]
      constructor
      · rintro (h1 | h2)
        · exact absurd h1 h
        · exact h2
      · intro h2
        exact Or.inr h2

theorem cyNe_eq_true_iff (x y : Option Val) :
    cyNe x y = true ↔ ∃ va vb, x = some va ∧ y = some vb ∧ va ≠ vb := by
  cases x with
  | none => simp [cyNe]
  | some a =>
    cases y with
    | none => simp [cyNe]
    | some b => simp [cyNe, bne_iff_ne]

/- Helper lemmas for the window deduplicator. -/

theorem filter_range_map_getD_sublist {α : Type} (l : List α) (d : α)
    (p : Nat → Bool) :
    (((List.range l.length).filter p).map (fun i => l.getD i d)).Sublist l := by
  induction l generalizing p with
  | nil => simp
  | cons a t ih =>
    rw [List.length_cons, List.range_succ_eq_map, List.filter_cons]
    by_cases h : p 0
    · rw [if_pos h, List.map_cons, List.getD_cons_zero, List.filter_map,
        List.map_map]
      refine List.Sublist.cons₂ a ?_
      have hc : ((fun i => (a :: t).getD i d) ∘ Nat.succ) =
          fun i => t.getD i d := by
        funext i
        simp [List.getD_cons_succ]
      rw [hc]
      exact ih (p ∘ Nat.succ)
    · rw [if_neg h, List.filter_map, List.map_map]
      refine List.Sublist.cons a ?_
      have hc : ((fun i => (a :: t).getD i d) ∘ Nat.succ) =
          fun i => t.getD i d := by
        funext i
        simp [List.getD_cons_succ]
      rw [hc]
      exact ih (p ∘ Nat.succ)

theorem toMergeIdx_mem_iff (n : SearchNode) (i : Nat) :
    i ∈ toMergeIdx n ↔ i < n.search.length ∧ ∃ j, j < n.search.length ∧
      j ≠ i ∧ cyContains (n.search.getD j "") (n.search.getD i "") = true ∧
      (n.timestamp.getD j 0 - n.timestamp.getD i 0).natAbs ≤ 60000 := by
  rw [toMergeIdx, List.mem_filter, List.mem_range, List.any_eq_true]
  constructor
  · rintro ⟨hi, j, hj, hcond⟩
    simp only [Bool.and_eq_true, bne_iff_ne, decide_eq_true_eq] at hcond
    exact ⟨hi, j, List.mem_range.mp hj, hcond.1.1, hcond.1.2, hcond.2⟩
  · rintro ⟨hi, j, hj, hne, hc, ht⟩
    refine ⟨hi, j, List.mem_range.mpr hj, ?_⟩
    simp only [Bool.and_eq_true, bne_iff_ne, decide_eq_true_eq]
    exact ⟨⟨hne, hc⟩, ht⟩

/- Helper lemmas for the batched mutation executor. -/

theorem chunksGo_succ_eq {α : Type} (b : Nat) :
    ∀ (xs acc : List α) (r : Nat),
      chunksGo b xs acc (r + 1) =
        if xs.isEmpty && acc.isEmpty then []
        else (acc.reverse ++ xs.take (r + 1)) ::
          chunksGo b (xs.drop (r + 1)) [] b := by
  intro xs
  induction xs with
  | nil =>
    intro acc r
    cases acc with
    | nil => simp [chunksGo]
    | cons a t => simp [chunksGo]
  | cons x xs2 ih =>
    intro acc r
    cases r with
    | zero =>
      simp [chunksGo, List.take_succ_cons, List.drop_succ_cons]
    | succ r2 =>
      rw [chunksGo]
      rw [if_neg (by omega)]
      have hr : r2 + 1 + 1 - 1 = r2 + 1 := by omega
      rw [hr, ih (x :: acc) r2]
      simp [List.take_succ_cons, List.drop_succ_cons]

theorem chunks_nil {α : Type} (b : Nat) : chunks b ([] : List α) = [] := by
  cases b with
  | zero => simp [chunks, chunksGo]
  | succ b2 => simp [chunks, chunksGo]

theorem chunks_cons_eq {α : Type} (b : Nat) (hb : 0 < b) (l : List α)
    (hl : l ≠ []) :
    chunks b l = l.take b :: chunks b (l.drop b) := by
  obtain ⟨r, rfl⟩ : ∃ r, b = r + 1 := ⟨b - 1, by omega⟩
  rw [chunks, chunksGo_succ_eq]
  have hne : l.isEmpty = false := by
    cases l with
    | nil => exact absurd rfl hl
    | cons a t => rfl
  simp [hne, chunks]

theorem chunks_flatten {α : Type} (b : Nat) (hb : 0 < b) (l : List α) :
    (chunks b l).flatten = l := by
  have H : ∀ (k : Nat) (l : List α), l.length ≤ k →
      (chunks b l).flatten = l := by
    intro k
    induction k with
    | zero =>
      intro l hl
      have he : l = [] := List.eq_nil_of_length_eq_zero (by omega)
      rw [he, chunks_nil]
      rfl
    | succ k2 ih =>
      intro l hl
      by_cases h : l = []
      · rw [h, chunks_nil]
        rfl
      · rw [chunks_cons_eq b hb l h, List.flatten_cons]
        have hlen : (l.drop b).length ≤ k2 := by
          rw [List.length_drop]
          have : 0 < l.length := List.length_pos.mpr h
          omega
        rw [ih (l.drop b) hlen, List.take_append_drop]
  exact H l.length l le_rfl

theorem chunks_length_eq {α : Type} (b : Nat) (hb : 0 < b) (l : List α) :
    (chunks b l).length = (l.length + b - 1) / b := by
  have H : ∀ (k : Nat) (l : List α), l.length ≤ k →
      (chunks b l).length = (l.length + b - 1) / b := by
    intro k
    induction k with
    | zero =>
      intro l hl
      have he : l = [] := List.eq_nil_of_length_eq_zero (by omega)
      rw [he, chunks_nil]
      have hd : (b - 1) / b = 0 := Nat.div_eq_of_lt (by omega)
      simp [hd]
    | succ k2 ih =>
      intro l hl
      by_cases h : l = []
      · rw [h, chunks_nil]
        have hd : (b - 1) / b = 0 := Nat.div_eq_of_lt (by omega)
        simp [hd]
      · rw [chunks_cons_eq b hb l h, List.length_cons]
        have hpos : 0 < l.length := List.length_pos.mpr h
        have hlen : (l.drop b).length ≤ k2 := by
          rw [List.length_drop]; omega
        rw [ih (l.drop b) hlen, List.length_drop]
        obtain ⟨L, hL⟩ : ∃ L, l.length = L + 1 := ⟨l.length - 1, by omega⟩
        rw [hL]
        have e2 : L + 1 + b - 1 = L + b := by omega
        rw [e2, Nat.add_div_right _ hb]
        by_cases hcase : b ≤ L + 1
        · have e3 : L + 1 - b + b - 1 = L := by omega
          rw [e3]
        · have e3 : L + 1 - b + b - 1 = b - 1 := by omega
          rw [e3, Nat.div_eq_of_lt (by omega),
            Nat.div_eq_of_lt (by omega : L < b)]
  exact H l.length l le_rfl

theorem chunks_sizes {α : Type} (b : Nat) (hb : 0 < b) (l : List α) :
    ∀ c ∈ chunks b l, c.length ≤ b := by
  have H : ∀ (k : Nat) (l : List α), l.length ≤ k →
      ∀ c ∈ chunks b l, c.length ≤ b := by
    intro k
    induction k with
    | zero =>
      intro l hl c hc
      have he : l = [] := List.eq_nil_of_length_eq_zero (by omega)
      rw [he, chunks_nil] at hc
      exact absurd hc (List.not_mem_nil c)
    | succ k2 ih =>
      intro l hl c hc
      by_cases h : l = []
      · rw [h, chunks_nil] at hc
        exact absurd hc (List.not_mem_nil c)
      · rw [chunks_cons_eq b hb l h, List.mem_cons] at hc
        rcases hc with rfl | hc
        · rw [List.length_take]
          omega
        · have hpos : 0 < l.length := List.length_pos.mpr h
          exact ih (l.drop b) (by rw [List.length_drop]; omega) c hc
  exact H l.length l le_rfl

theorem chunks_map_length_1237 {α : Type} (l : List α) (h : l.length = 1237) :
    (chunks 500 l).map List.length = [500, 500, 237] := by
  have h0 : l ≠ [] := by intro e; rw [e] at h; simp at h
  rw [chunks_cons_eq 500 (by norm_num) l h0]
  have h1 : (l.drop 500).length = 737 := by rw [List.length_drop, h]
  have h01 : l.drop 500 ≠ [] := by intro e; rw [e] at h1; simp at h1
  rw [chunks_cons_eq 500 (by norm_num) _ h01]
  have h2 : ((l.drop 500).drop 500).length = 237 := by rw [List.length_drop, h1]
  have h02 : (l.drop 500).drop 500 ≠ [] := by intro e; rw [e] at h2; simp at h2
  rw [chunks_cons_eq 500 (by norm_num) _ h02]
  have h3 : (((l.drop 500).drop 500).drop 500).length = 0 := by
    rw [List.length_drop, h2]
  have h03 : ((l.drop 500).drop 500).drop 500 = [] :=
    List.eq_nil_of_length_eq_zero h3
  rw [h03, chunks_nil]
  simp [List.length_take, h, h1, h2]

/- Claim theorems. -/

/-- Claim C1: for every lineage and every state reachable by any sequence of
Version Manager updates from a well-formed store satisfying the lineage
invariant, exactly one entity in each lineage has the Current label (at most
one by atMostOne, at least one by atLeastOne) and every non-Current entity is
Historical: the update query preserves the invariant across any sequence. -/
theorem runUpdates_exactly_one_current (us : List (Int × UpdateParams))
    (st : Store) (hwf : WF st) (hinv : LineageInv st) :
    WF (runUpdates us st) ∧ LineageInv (runUpdates us st) := by
  induction us generalizing st with
  | nil => exact ⟨hwf, hinv⟩
  | cons u us ih =>
    rw [runUpdates, List.foldl_cons]
    have h1 := updateQuery_WFInv u.1 u.2 st hwf hinv
    exact ih (updateQuery u.1 u.2 st) h1.1 h1.2

/-- Witness for claim C1: a concrete store with one Current entity satisfies
the hypotheses, and the invariant holds after a concrete update run. -/
theorem runUpdates_exactly_one_current_witness :
    WF invStore ∧ LineageInv invStore ∧
      (WF (runUpdates [(5, exParams)] invStore) ∧
        LineageInv (runUpdates [(5, exParams)] invStore)) := by
  have hwf : WF invStore := ⟨by decide, by decide, by decide⟩
  have hinv : LineageInv invStore := by
    refine ⟨?_, ?_, ?_⟩
    · intro a ha b hb _ _ _
      have ha2 : a = exOld := by simpa [invStore] using ha
      have hb2 : b = exOld := by simpa [invStore] using hb
      rw [ha2, hb2]
    · intro a ha
      have ha2 : a = exOld := by simpa [invStore] using ha
      refine ⟨exOld, by simp [invStore], rfl, ?_⟩
      rw [ha2]
      exact Relation.ReflTransGen.refl
    · intro a ha h
      have ha2 : a = exOld := by simpa [invStore] using ha
      rw [ha2] at h
      exact absurd h (by decide)
  exact ⟨hwf, hinv, runUpdates_exactly_one_current [(5, exParams)] invStore
    hwf hinv⟩

/-- Claim C2: when the update query matches exactly one changed Current
entity m, the result contains a new node with the Current and Node labels,
the incoming name and email and a createdAt stamp; the node count grows by
one; every node of the lineage entity m now carries Historical and not
Current; and exactly one PREVIOUS_VERSION edge runs from the new node to m. -/
theorem updateQuery_branch_correct (now : Int) (p : UpdateParams) (st : Store)
    (m : GNode) (hwf : WF st) (hm : matchedChanged p st = [m]) :
    ∃ w ∈ (updateQuery now p st).nodes,
      w.nid = st.nextId ∧
      hasLabel w "Current" = true ∧
      hasLabel w "Node" = true ∧
      getProp w "name" = some (Val.str p.name) ∧
      getProp w "email" = some (Val.str p.email) ∧
      getProp w "createdAt" = some (Val.int now) ∧
      (updateQuery now p st).nodes.length = st.nodes.length + 1 ∧
      (∀ n ∈ (updateQuery now p st).nodes, n.nid = m.nid →
        hasLabel n "Current" = false ∧ hasLabel n "Historical" = true) ∧
      ((updateQuery now p st).edges.filter (fun e =>
          e.typ == "PREVIOUS_VERSION" && e.src == st.nextId &&
            e.tgt == m.nid)).length = 1 := by
  have hmm : m ∈ st.nodes ∧ nodeMatches p m = true ∧
      changedFields p m = true := by
    refine (mem_matchedChanged p st m).mp ?_
    rw [hm]
    exact List.mem_singleton.mpr rfl
  have hlt : m.nid < st.nextId := hwf.nodesLt m hmm.1
  rw [updateQuery_single now p st m hm]
  refine ⟨wNode now p st.nextId, ?_, rfl, rfl, rfl, rfl, rfl, rfl, ?_, ?_, ?_⟩
  · rw [branchStep]
    exact List.mem_append_right _ (List.mem_singleton.mpr rfl)
  · rw [branchStep]
    simp [List.length_append, List.length_map]
  · intro n hn hnid
    rw [branchStep] at hn
    rcases List.mem_append.mp hn with hmap | hw
    · obtain ⟨n0, hn0, rfl⟩ := List.mem_map.mp hmap
      rw [flipLabels_nid] at hnid
      exact ⟨flipLabels_current_self m n0 hnid, flipLabels_historical_self m n0 hnid⟩
    · exfalso
      have he : n = wNode now p st.nextId := List.mem_singleton.mp hw
      rw [he] at hnid
      have he2 : st.nextId = m.nid := hnid
      omega
  · rw [branchStep]
    rw [List.filter_append, List.filter_cons]
    have h1 : st.edges.filter (fun e =>
        e.typ == "PREVIOUS_VERSION" && e.src == st.nextId &&
          e.tgt == m.nid) = [] := by
      rw [List.filter_eq_nil_iff]
      intro e he
      have hlt2 := (hwf.edgesLt e he).1
      simp only [Bool.and_eq_true, beq_iff_eq]
      rintro ⟨⟨-, h2⟩, -⟩
      omega
    have h2 : ((pvEdge now st.nextId m.nid).typ == "PREVIOUS_VERSION" &&
        (pvEdge now st.nextId m.nid).src == st.nextId &&
        (pvEdge now st.nextId m.nid).tgt == m.nid) = true := by
      simp [pvEdge]
    have h3 : (clonesOf now st.nextId st m).filter (fun e =>
        e.typ == "PREVIOUS_VERSION" && e.src == st.nextId &&
          e.tgt == m.nid) = [] := by
      rw [List.filter_eq_nil_iff]
      intro e2 he2
      obtain ⟨e, -, -, -, rfl⟩ := clonesOf_shape now st.nextId st m e2 he2
      simp
    rw [h1, if_pos h2, h3]
    rfl

/-- Witness for claim C2: the fixture store matches exactly the m1 entity
with changed properties, and the branch conclusions hold there. -/
theorem updateQuery_branch_correct_witness :
    matchedChanged exParams exStore = [exOld] ∧
      ∃ w ∈ (updateQuery 9 exParams exStore).nodes,
        w.nid = exStore.nextId ∧
        hasLabel w "Current" = true ∧
        hasLabel w "Node" = true ∧
        getProp w "name" = some (Val.str exParams.name) ∧
        getProp w "email" = some (Val.str exParams.email) ∧
        getProp w "createdAt" = some (Val.int 9) ∧
        (updateQuery 9 exParams exStore).nodes.length =
          exStore.nodes.length + 1 ∧
        (∀ n ∈ (updateQuery 9 exParams exStore).nodes, n.nid = exOld.nid →
          hasLabel n "Current" = false ∧ hasLabel n "Historical" = true) ∧
        ((updateQuery 9 exParams exStore).edges.filter (fun e =>
            e.typ == "PREVIOUS_VERSION" && e.src == exStore.nextId &&
              e.tgt == exOld.nid)).length = 1 :=
  ⟨by decide, updateQuery_branch_correct 9 exParams exStore exOld
    ⟨by decide, by decide, by decide⟩ (by decide)⟩

/-- Claim C3: when every entity the update pattern matches has unchanged
comparable fields (name and email equal to the incoming ones under the
Cypher WHERE semantics), the update query is a no-op, applying it twice in a
row leaves the store unchanged, and the entity count of every id-lineage is
preserved (in particular a one-entity lineage keeps exactly one entity). -/
theorem updateQuery_idempotent_noop (now now2 : Int) (p : UpdateParams)
    (st : Store)
    (h : ∀ n ∈ st.nodes, nodeMatches p n = true → changedFields p n = false) :
    updateQuery now p st = st ∧
      updateQuery now2 p (updateQuery now p st) = st ∧
      ∀ lid : String,
        ((updateQuery now2 p (updateQuery now p st)).nodes.filter (fun n =>
            getProp n "id" == some (Val.str lid))).length =
          (st.nodes.filter (fun n =>
            getProp n "id" == some (Val.str lid))).length := by
  have hmc : matchedChanged p st = [] := by
    rw [matchedChanged, List.filter_eq_nil_iff]
    intro n hn
    rw [Bool.and_eq_true]
    rintro ⟨h1, h2⟩
    rw [h n hn h1] at h2
    cases h2
  have h1 : updateQuery now p st = st := by
    rw [updateQuery, hmc]
    rfl
  have h2 : updateQuery now2 p st = st := by
    rw [updateQuery, hmc]
    rfl
  rw [h1, h2]
  exact ⟨rfl, rfl, fun lid => rfl⟩

/-- Witness for claim C3: updating the m1 entity with its current name and
email is a no-op on the fixture store. -/
theorem updateQuery_idempotent_noop_witness :
    (∀ n ∈ exStore.nodes,
        nodeMatches (UpdateParams.mk "m1" "a" "e") n = true →
        changedFields (UpdateParams.mk "m1" "a" "e") n = false) ∧
      updateQuery 3 (UpdateParams.mk "m1" "a" "e") exStore = exStore :=
  ⟨by decide, (updateQuery_idempotent_noop 3 4 (UpdateParams.mk "m1" "a" "e")
    exStore (by decide)).1⟩

/-- Counterexample for claim C4: on the fixture store the branch clones no
LINKED_TO edge at all (only RELTYPE is in the allow-list), and the cloned
RELTYPE edge ends with properties stripped of the from key, so its from
property is not the branch timestamp (the created stamp is overwritten by
the property copy and then removed). -/
theorem relationship_carry_forward_counterexample :
    ((updateQuery 9 exParams exStore).edges.filter (fun e =>
        e.src == 2 && e.typ == "LINKED_TO")).length = 0 ∧
      ((updateQuery 9 exParams exStore).edges.filter (fun e =>
        e.src == 2 && e.typ == "RELTYPE")).map GEdge.props =
        [[("weight", Val.int 3)]] := by
  decide

/-- Claim C4 as amended: after a single-match branch, every original edge is
left unchanged in the store; every outgoing RELTYPE edge of the match gets an
equivalent RELTYPE clone from the new node to the same target whose
properties are the original ones minus the from and to keys; and every edge
of the result is an original edge, the PREVIOUS_VERSION edge, or such a
clone carrying neither a from nor a to property (edges of other types are
not carried forward and no branch timestamp survives on the clone). -/
theorem relationship_carry_forward_amended (now : Int) (p : UpdateParams)
    (st : Store) (m : GNode) (hm : matchedChanged p st = [m]) :
    (∀ e ∈ st.edges, e ∈ (updateQuery now p st).edges) ∧
      (∀ e ∈ st.edges, e.src = m.nid → e.typ = "RELTYPE" →
        (⟨st.nextId, "RELTYPE", e.tgt, stripLifecycle e.props⟩ : GEdge) ∈
          (updateQuery now p st).edges) ∧
      (∀ e2 ∈ (updateQuery now p st).edges, e2 ∈ st.edges ∨
        e2 = pvEdge now st.nextId m.nid ∨
        (e2.typ = "RELTYPE" ∧ e2.props.lookup "from" = none ∧
          e2.props.lookup "to" = none ∧
          ∃ e ∈ st.edges, e.src = m.nid ∧ e.typ = "RELTYPE" ∧ e2.tgt = e.tgt ∧
            e2.props = stripLifecycle e.props)) := by
  rw [updateQuery_single now p st m hm]
  refine ⟨?_, ?_, ?_⟩
  · intro e he
    rw [branchStep]
    exact List.mem_append_left _ he
  · intro e he hsrc htyp
    rw [branchStep]
    refine List.mem_append_right _ (List.mem_cons.mpr (Or.inr ?_))
    rw [clonesOf, List.mem_filterMap]
    refine ⟨e, ?_, ?_⟩
    · rw [outRels, List.mem_filter]
      refine ⟨he, ?_⟩
      rw [Bool.and_eq_true]
      constructor
      · simp [hsrc]
      · rw [htyp]
        decide
    · rw [if_pos (by simp [htyp])]
      rfl
  · intro e2 he2
    rw [branchStep] at he2
    rcases List.mem_append.mp he2 with hold | hnew
    · exact Or.inl hold
    · rcases List.mem_cons.mp hnew with rfl | hclone
      · exact Or.inr (Or.inl rfl)
      · obtain ⟨e, he, hsrc, htyp, rfl⟩ :=
          clonesOf_shape now st.nextId st m e2 hclone
        exact Or.inr (Or.inr ⟨rfl, lookup_stripLifecycle_from e.props,
          lookup_stripLifecycle_to e.props, e, he, hsrc, htyp, rfl, rfl⟩)

/-- Witness for claim C4 as amended: on the fixture store the original
LINKED_TO edge survives the branch unchanged. -/
theorem relationship_carry_forward_amended_witness :
    matchedChanged exParams exStore = [exOld] ∧
      (⟨0, "LINKED_TO", 1, [("w", Val.int 7)]⟩ : GEdge) ∈
        (updateQuery 9 exParams exStore).edges :=
  ⟨by decide, (relationship_carry_forward_amended 9 exParams exStore exOld
    (by decide)).1 _ (by decide)⟩

/-- Counterexample for claim C5: on the chain with values 10, 12, 9 the
query value list for the start node holds only the hop values 12 and 9, so
the start row computes 3, every produced row carries 3 or 0, and the
specified value 5 / 2 appears in no row. -/
theorem chain_average_difference_counterexample :
    averageDifferenceRow [10, 12, 9] 0 = 3 ∧
      (queryRows [10, 12, 9]).map (fun r => r.2.2) = [3, 3, 0] ∧
      ¬ (5 / 2 : ℚ) ∈ (queryRows [10, 12, 9]).map (fun r => r.2.2) := by
  have h1 : averageDifferenceRow [10, 12, 9] 0 = 3 := by
    norm_num [averageDifferenceRow, pathValues, totalDifference,
      differencesOf, List.range_succ]
  have h2 : (queryRows [10, 12, 9]).map (fun r => r.2.2) = [3, 3, 0] := by
    norm_num [queryRows, averageDifferenceRow, pathValues, totalDifference,
      differencesOf, List.range_succ, List.filter]
  refine ⟨h1, h2, ?_⟩
  rw [h2]
  intro hmem
  rcases List.mem_cons.mp hmem with h | hmem2
  · norm_num at h
  · rcases List.mem_cons.mp hmem2 with h | hmem3
    · norm_num at h
    · rcases List.mem_cons.mp hmem3 with h | hmem4
      · norm_num at h
      · exact List.not_mem_nil _ hmem4

/-- Claim C5 as amended: the value list of a row excludes the start value,
so for start position i of a chain the average difference equals the sum of
absolute adjacent differences of the values strictly after position i,
divided by max 1 (length of that suffix minus one); in particular the chain
10, 12, 9 yields 3 for its start row, not 5 / 2. -/
theorem chain_average_difference_amended :
    (∀ (chain : List ℚ) (i : Nat),
        averageDifferenceRow chain i =
          absStepSum (chain.drop (i + 1)) /
            ((max 1 ((chain.drop (i + 1)).length - 1) : Nat) : ℚ)) ∧
      averageDifferenceRow [10, 12, 9] 0 = 3 := by
  constructor
  · intro chain i
    rw [averageDifferenceRow]
    simp only [pathValues]
    rw [totalDifference_eq_absStepSum, divisor_eq_max]
  · norm_num [averageDifferenceRow, pathValues, totalDifference,
      differencesOf, List.range_succ]

/-- Counterexample for claim C6: a single-node chain produces no result row
at all (the MATCH demands at least one hop), rather than returning the raw
value divided by 1. -/
theorem single_node_chain_counterexample : queryRows [10] = [] := by
  norm_num [queryRows, List.range_succ, List.filter]

/-- Claim C6 as amended: the CASE divisor is never zero; whenever the row
value list has length at most 1 the divisor is 1; but a single-node chain
produces no result row at all, and a two-node chain start row evaluates to
0 / 1 = 0 rather than the raw value. -/
theorem chain_divisor_safe_amended :
    (∀ (chain : List ℚ) (i : Nat),
        (if (pathValues chain i).length > 1 then
            ((pathValues chain i).length : ℚ) - 1 else 1) ≠ 0) ∧
      (∀ (chain : List ℚ) (i : Nat), (pathValues chain i).length ≤ 1 →
        averageDifferenceRow chain i =
          totalDifference (pathValues chain i) / 1) ∧
      (∀ v : ℚ, queryRows [v] = []) ∧
      averageDifferenceRow [(3 : ℚ), 7] 0 = 0 := by
  refine ⟨?_, ?_, ?_, ?_⟩
  · intro chain i
    by_cases h : (pathValues chain i).length > 1
    · rw [if_pos h]
      intro heq
      have h2 : ((pathValues chain i).length : ℚ) = 1 := by linarith
      have h3 : (pathValues chain i).length = 1 := by exact_mod_cast h2
      omega
    · rw [if_neg h]
      norm_num
  · intro chain i h
    rw [averageDifferenceRow]
    simp only [pathValues] at h ⊢
    rw [if_neg (by omega)]
  · intro v
    norm_num [queryRows, List.range_succ, List.filter]
  · norm_num [averageDifferenceRow, pathValues, totalDifference,
      differencesOf, List.range_succ]

/-- Witness for claim C6 as amended: the singleton chain has a row value
list of length 0, and the divisor-1 branch applies to it. -/
theorem chain_divisor_safe_amended_witness :
    (pathValues [10] 0).length ≤ 1 ∧
      averageDifferenceRow [10] 0 = totalDifference (pathValues [10] 0) / 1 :=
  ⟨by decide, chain_divisor_safe_amended.2.1 [10] 0 (by decide)⟩

/-- Claim C7: the pairwise diff returns exactly the keys present in both
property maps whose values differ; a key present in only one map never
appears (the Cypher NULL comparison is never TRUE); on the example maps with
x equal and y differing the result is the y key alone. -/
theorem differing_properties_correct :
    (∀ (propsA propsB : List (String × Val)) (k : String),
        k ∈ differingProperties propsA propsB ↔
          ∃ va vb, propsA.lookup k = some va ∧ propsB.lookup k = some vb ∧
            va ≠ vb) ∧
      differingProperties [("x", Val.int 1), ("y", Val.int 2)]
          [("x", Val.int 1), ("y", Val.int 3)] = ["y"] := by
  constructor
  · intro A B k
    rw [differingProperties, List.mem_filter, mem_keys_iff_lookup,
      cyNe_eq_true_iff]
    constructor
    · rintro ⟨⟨v, hv⟩, va, vb, ha, hb, hne⟩
      exact ⟨va, vb, ha, hb, hne⟩
    · rintro ⟨va, vb, ha, hb, hne⟩
      exact ⟨⟨va, ha⟩, va, vb, ha, hb, hne⟩
  · decide

/-- Claim C8: on parallel search and timestamp lists of equal length, the
deduplication removes exactly the indices dominated by another index within
the 60,000 ms window (the membership characterization of indexesToMerge),
both rebuilt lists have equal length, each is a subsequence of its original
preserving relative order, and the documented example keeps foo bar and baz
with their timestamps. -/
theorem dedup_window_correct (n : SearchNode)
    (hlen : n.search.length = n.timestamp.length) :
    (dedupSearch n).search.length = (dedupSearch n).timestamp.length ∧
      (dedupSearch n).search.Sublist n.search ∧
      (dedupSearch n).timestamp.Sublist n.timestamp ∧
      (∀ i, i ∈ toMergeIdx n ↔ i < n.search.length ∧ ∃ j,
        j < n.search.length ∧ j ≠ i ∧
        cyContains (n.search.getD j "") (n.search.getD i "") = true ∧
        (n.timestamp.getD j 0 - n.timestamp.getD i 0).natAbs ≤ 60000) ∧
      dedupSearch exSearchNode =
        SearchNode.mk ["foo bar", "baz"] [0, 120000] := by
  refine ⟨?_, ?_, ?_, toMergeIdx_mem_iff n, ?_⟩
  · rw [dedupSearch]
    simp only [List.length_map, hlen]
  · exact filter_range_map_getD_sublist n.search "" _
  · exact filter_range_map_getD_sublist n.timestamp 0 _
  · decide

/-- Witness for claim C8: the documented example entity has parallel lists
of equal length, and its rebuilt lists again have equal length. -/
theorem dedup_window_correct_witness :
    exSearchNode.search.length = exSearchNode.timestamp.length ∧
      (dedupSearch exSearchNode).search.length =
        (dedupSearch exSearchNode).timestamp.length :=
  ⟨by decide, (dedup_window_correct exSearchNode (by decide)).1⟩

/-- Counterexample for claim C9: with no entity in the lineage, the
update-only MATCH query returns an empty row set on an unchanged store — it
neither creates an entity nor signals NotFound. -/
theorem update_only_notfound_counterexample :
    updateQueryFull 0 exParams emptyStore = UpdateResult.rows emptyStore [] ∧
      UpdateResult.rows emptyStore [] ≠ UpdateResult.notFound ∧
      (updateQuery 0 exParams emptyStore).nodes = [] := by
  refine ⟨by decide, by decide, by decide⟩

/-- Claim C9 as amended: when no entity matches the merge pattern, the MERGE
ingest creates exactly one new entity labeled CurrentVersion and YourLabel,
carrying the unique property and the incoming properties, with no edge
change — the first version of the lineage, not an error; the update-only
MATCH query, by contrast, performs no change and yields an empty row set
(no NotFound signal exists in its outcome). -/
theorem first_version_creation_amended (now : Int) (row : CsvRow) (st : Store)
    (h : st.nodes.filter (fun n => mergeMatches row n) = []) :
    (∃ n2, (mergeIngest now row st).nodes = st.nodes ++ [n2] ∧
        hasLabel n2 "CurrentVersion" = true ∧
        hasLabel n2 "YourLabel" = true ∧
        getProp n2 "uniqueProperty" = some (Val.str row.uniqueProperty) ∧
        getProp n2 "property1" = some (Val.str row.csvProperty1) ∧
        getProp n2 "property2" = some (Val.str row.csvProperty2)) ∧
      (mergeIngest now row st).edges = st.edges ∧
      ∀ (now2 : Int) (p : UpdateParams) (st2 : Store),
        matchedChanged p st2 = [] →
        updateQueryFull now2 p st2 = UpdateResult.rows st2 [] := by
  refine ⟨?_, ?_, ?_⟩
  · rw [mergeIngest, h]
    refine ⟨_, rfl, ?_, ?_, ?_, ?_, ?_⟩ <;> rfl
  · rw [mergeIngest, h]
  · intro now2 p st2 h2
    rw [updateQueryFull, h2]
    rfl

/-- Witness for claim C9 as amended: the empty store has no entity matching
the fixture row, and the ingest leaves the edge set unchanged. -/
theorem first_version_creation_amended_witness :
    emptyStore.nodes.filter (fun n => mergeMatches exRow n) = [] ∧
      (mergeIngest 4 exRow emptyStore).edges = emptyStore.edges :=
  ⟨by decide, (first_version_creation_amended 4 exRow emptyStore
    (by decide)).2.1⟩

/-- Claim C10: for every positive batch size b, the executor splits the n
matched entities into exactly ceil of n over b batches, each of size at most
b, whose concatenation is the original selection (so no entity is mutated
twice), and the sequential batched run equals the plain sequential fold; the
selection of 1237 entities with batch size 500 yields exactly the batch
sizes 500, 500 and 237. -/
theorem batched_executor_correct :
    (∀ (α σ : Type) (b : Nat) (l : List α), 0 < b →
        (chunks b l).length = (l.length + b - 1) / b ∧
          (∀ c ∈ chunks b l, c.length ≤ b) ∧
          (chunks b l).flatten = l ∧
          ∀ (f : σ → α → σ) (st : σ),
            periodicIterate f b l st = l.foldl f st) ∧
      (chunks 500 (List.range 1237)).map List.length = [500, 500, 237] := by
  constructor
  · intro α σ b l hb
    refine ⟨chunks_length_eq b hb l, chunks_sizes b hb l,
      chunks_flatten b hb l, ?_⟩
    intro f st
    rw [periodicIterate, ← List.foldl_flatten, chunks_flatten b hb l]
  · exact chunks_map_length_1237 _ (by simp)

/-- Witness for claim C10: batch size 500 is positive, and batching the
1237-entity selection covers exactly the original selection. -/
theorem batched_executor_correct_witness :
    0 < 500 ∧ (chunks 500 (List.range 1237)).flatten = List.range 1237 :=
  ⟨by decide, (batched_executor_correct.1 Nat Nat 500 (List.range 1237)
    (by decide)).2.2.1⟩
